import Mathlib

/-
Verification development for the reflac recompression tool (src/main.rs).

Strings are modelled as lists of characters.  The Rust regex crate performs
an unanchored leftmost search; every field pattern of the program has the
shape  NAME(?:\[(\d+)\])?=VALUE , which is modelled by scanning each suffix
of the line for the literal NAME followed by an optional bracketed decimal
index, an equals sign and the value pattern.  The \d class is modelled as
the ASCII digits, which is the only range exercised by the program data.
-/

deriving instance DecidableEq for Except

def natOfDigits (ds : List Char) : Nat :=
  ds.foldl (fun n c => 10 * n + (c.toNat - 48)) 0

/-- Model of Rust str::trim, removing whitespace at both ends. -/
def trimChars (cs : List Char) : List Char :=
  ((cs.dropWhile Char.isWhitespace).reverse.dropWhile Char.isWhitespace).reverse

/-- Model of str::replace with a one-character pattern, as used for "/" → "_". -/
def replaceSlash (cs : List Char) : List Char :=
  cs.map (fun c => if c = '/' then '_' else c)

/-- Decimal rendering of a usize, as produced by the Display impl, written
with structural fuel so that concrete values evaluate in the kernel; the
fuel n + 1 always suffices because the quotient shrinks. -/
def natDecimalAux : Nat → Nat → List Char
  | 0, _ => []
  | fuel + 1, n =>
    if n < 10 then [Char.ofNat (48 + n)]
    else natDecimalAux fuel (n / 10) ++ [Char.ofNat (48 + n % 10)]

def natDecimal (n : Nat) : List Char := natDecimalAux (n + 1) n

def startsWithC : List Char → List Char → Bool
  | [], _ => true
  | _ :: _, [] => false
  | p :: ps, c :: cs => p = c && startsWithC ps cs

/-- Substring occurrence test (used to model the .*\.flac tail of a pattern). -/
def hasSub (pat : List Char) : List Char → Bool
  | [] => startsWithC pat []
  | c :: cs => startsWithC pat (c :: cs) || hasSub pat cs

/-- Strip a literal off the front of a character list. -/
def dropPre : List Char → List Char → Option (List Char)
  | [], cs => some cs
  | _ :: _, [] => none
  | p :: ps, c :: cs => if p = c then dropPre ps cs else none

/--
After the field name, match the optional bracketed index and the equals
sign, i.e. the fragment (?:\[(\d+)\])?= of every field regex.  Greedy
matching of the optional group with backtracking: if the bracket attempt
fails the bare equals sign is required, which cannot succeed on a line that
starts the fragment with an opening bracket.
-/
def bracketEq : List Char → Option (Option Nat × List Char)
  | '[' :: rest =>
    let ds := rest.takeWhile Char.isDigit
    let r2 := rest.dropWhile Char.isDigit
    if ds.isEmpty then none
    else
      match r2 with
      | ']' :: '=' :: r3 => some (some (natOfDigits ds), r3)
      | _ => none
  | '=' :: rest => some (none, rest)
  | _ => none

/-- Value pattern (.*): captures the rest of the line. -/
def valAny (cs : List Char) : Option (List Char) := some cs

/-- Value pattern (\d+): greedy digit run, at least one digit. -/
def valDigits (cs : List Char) : Option Nat :=
  let ds := cs.takeWhile Char.isDigit
  if ds.isEmpty then none else some (natOfDigits ds)

/-- Value pattern (\d\d\d\d)-(\d\d)-(\d\d) of the DATE field. -/
def valDate : List Char → Option (Nat × Nat × Nat)
  | a :: b :: c :: d :: '-' :: e :: f :: '-' :: g :: h :: _ =>
    if [a, b, c, d, e, f, g, h].all Char.isDigit then
      some (natOfDigits [a, b, c, d], natOfDigits [e, f], natOfDigits [g, h])
    else none
  | _ => none

/--
Unanchored search for NAME(?:\[(\d+)\])?=VALUE in a line: try every start
position from the left, as Regex::captures does.
-/
def scanWith {α : Type} (name : List Char) (val : List Char → Option α) :
    List Char → Option (Option Nat × α)
  | [] => none
  | c :: cs =>
    match dropPre name (c :: cs) with
    | some r =>
      match bracketEq r with
      | some (oid, r3) =>
        match val r3 with
        | some v => some (oid, v)
        | none => scanWith name val cs
      | none => scanWith name val cs
    | none => scanWith name val cs

def nINPUT : List Char := "INPUT".toList
def nTITLE : List Char := "TITLE".toList
def nARTIST : List Char := "ARTIST".toList
def nLYRICIST : List Char := "LYRICIST".toList
def nCOMPOSER : List Char := "COMPOSER".toList
def nARRANGER : List Char := "ARRANGER".toList
def nALBUM : List Char := "ALBUM".toList
def nDISC : List Char := "DISC".toList
def nGENRE : List Char := "GENRE".toList
def nDATE : List Char := "DATE".toList
def nLABEL : List Char := "LABEL".toList
def nCOMMENT : List Char := "COMMENT".toList
def nCOVER : List Char := "COVER".toList

/-- The Tag struct of the program. -/
structure Tag where
  input : Option (List Char)
  title : Option (List Char)
  artist : Option (List Char)
  lyricist : Option (List Char)
  composer : Option (List Char)
  arranger : Option (List Char)
  album : Option (List Char)
  track : Option Nat
  disc : Option Nat
  genre : Option (List Char)
  date : Option (Nat × Nat × Nat)
  label : Option (List Char)
  comment : Option (List Char)
  cover : Option (List Char)
deriving Repr, DecidableEq

def Tag.new : Tag :=
  ⟨none, none, none, none, none, none, none, none, none, none, none, none,
   none, none⟩

/-- Parser state of parse_trackinfo: the records list, the running default
tag and the lines that produced a trim warning. -/
structure PState where
  tags : List Tag
  global_tag : Tag
  warnings : List (List Char)
deriving Repr, DecidableEq

def initPState : PState := ⟨[], Tag.new, []⟩

/-- Model of tags.iter_mut().find(p) followed by a field assignment:
update the first matching record only. -/
def updateFirst (p : Tag → Bool) (f : Tag → Tag) : List Tag → List Tag
  | [] => []
  | t :: ts => if p t then f t :: ts else t :: updateFirst p f ts

/-- Bracketed-line record update: overwrite the field in the existing
record for the track, or clone the running default, set its track and the
field, and push it. -/
def setOrCreate (tags : List Tag) (g : Tag) (n : Nat) (set : Tag → Tag) :
    List Tag :=
  if tags.any (fun t => t.track == some n) then
    updateFirst (fun t => t.track == some n) set tags
  else
    tags ++ [set { g with track := some n }]

/-- Apply one matched field line: bracketed lines go to the record store,
unbracketed lines to the running default. -/
def applyField (st : PState) (oid : Option Nat) (set : Tag → Tag) : PState :=
  match oid with
  | some n => { st with tags := setOrCreate st.tags st.global_tag n set }
  | none => { st with global_tag := set st.global_tag }

def withWarn (st : PState) (w : Bool) (line : List Char) : PState :=
  if w then { st with warnings := st.warnings ++ [line] } else st

/-- Free-text field handling: trim, warn when trimming changed the value,
then store the trimmed value. -/
def textApply (st : PState) (line : List Char) (oid : Option Nat)
    (v : List Char) (set : Option (List Char) → Tag → Tag) : PState :=
  let tv := trimChars v
  applyField (withWarn st (tv ≠ v) line) oid (set (some tv))

/--
One line of parse_trackinfo: the if/else chain over the thirteen field
regexes, in source order.  The DISC arm reproduces the source exactly: the
captured bracket index is tested for presence but the parsed disc value is
used as the track number.
-/
def lineStep (st : PState) (line : List Char) : Option PState :=
  match scanWith nINPUT valAny line with
  | some (oid, v) => some (applyField st oid (fun t => { t with input := some v }))
  | none =>
    match scanWith nTITLE valAny line with
    | some (oid, v) => some (textApply st line oid v (fun x t => { t with title := x }))
    | none =>
      match scanWith nARTIST valAny line with
      | some (oid, v) => some (textApply st line oid v (fun x t => { t with artist := x }))
      | none =>
        match scanWith nLYRICIST valAny line with
        | some (oid, v) => some (textApply st line oid v (fun x t => { t with lyricist := x }))
        | none =>
          match scanWith nCOMPOSER valAny line with
          | some (oid, v) => some (textApply st line oid v (fun x t => { t with composer := x }))
          | none =>
            match scanWith nARRANGER valAny line with
            | some (oid, v) => some (textApply st line oid v (fun x t => { t with arranger := x }))
            | none =>
              match scanWith nALBUM valAny line with
              | some (oid, v) => some (textApply st line oid v (fun x t => { t with album := x }))
              | none =>
                match scanWith nDISC valDigits line with
                | some (oid, d) =>
                  some (applyField st (oid.map fun _ => d) (fun t => { t with disc := some d }))
                | none =>
                  match scanWith nGENRE valAny line with
                  | some (oid, v) => some (textApply st line oid v (fun x t => { t with genre := x }))
                  | none =>
                    match scanWith nDATE valDate line with
                    | some (oid, dt) => some (applyField st oid (fun t => { t with date := some dt }))
                    | none =>
                      match scanWith nLABEL valAny line with
                      | some (oid, v) => some (textApply st line oid v (fun x t => { t with label := x }))
                      | none =>
                        match scanWith nCOMMENT valAny line with
                        | some (oid, v) => some (textApply st line oid v (fun x t => { t with comment := x }))
                        | none =>
                          match scanWith nCOVER valAny line with
                          | some (oid, v) => some (applyField st oid (fun t => { t with cover := some v }))
                          | none => none

/-- A line matching no field regex is a fatal error unless it is empty. -/
def parseLine (st : PState) (line : List Char) : Except (List Char) PState :=
  match lineStep st line with
  | some st2 => .ok st2
  | none => if line = [] then .ok st else .error line

def parseLines : PState → List (List Char) → Except (List Char) PState
  | st, [] => .ok st
  | st, l :: ls =>
    match parseLine st l with
    | .ok st2 => parseLines st2 ls
    | .error e => .error e

/-- parse_trackinfo over the list of lines of the metadata file. -/
def parse_trackinfo (ls : List (List Char)) : Except (List Char) (List Tag) :=
  (parseLines initPState ls).map (fun st => st.tags)

/-- The record the ordering example expects for track 1. -/
def exTag1 : Tag :=
  { Tag.new with artist := some "1".toList, track := some 1, title := some "x".toList }

/-- The record the ordering example expects for track 2. -/
def exTag2 : Tag :=
  { Tag.new with artist := some "2".toList, track := some 2, title := some "y".toList }

/-- Zero padding of the track number, as in the 0fill format parameter. -/
def zeroPad (n w : Nat) : List Char :=
  List.replicate (w - (natDecimal n).length) '0' ++ natDecimal n

/--
Tag::output_path: the per-track relative path, as a list of path
components.  The source unwraps the track field; that panic is modelled by
the none result.  The slash replacement is applied to the whole formatted
file name, exactly as in the source.
-/
def Tag.output_path (tag : Tag) (padding : Nat) : Option (List (List Char)) :=
  match tag.track with
  | none => none
  | some tr =>
    let discPart : List (List Char) :=
      match tag.disc with
      | some d => ["Disc ".toList ++ natDecimal d]
      | none => []
    let fname : List Char :=
      match tag.artist, tag.title with
      | some artist, some title =>
        replaceSlash (zeroPad tr padding ++ ". ".toList ++ artist ++
          " - ".toList ++ title ++ ".flac".toList)
      | some artist, none =>
        replaceSlash (zeroPad tr padding ++ ". ".toList ++ artist ++ ".flac".toList)
      | none, some title =>
        replaceSlash (zeroPad tr padding ++ ". ".toList ++ title ++ ".flac".toList)
      | none, none =>
        replaceSlash (zeroPad tr padding ++ ".flac".toList)
    some (discPart ++ [fname])

def flacTail : List Char := ['.', 'f', 'l', 'a', 'c']

/--
Model of TRACKFILE_RE = .*?(\d+).*\.flac applied by Regex::captures to a
filename: the lazy prefix stops at the leftmost digit from which the rest
of the pattern can match, and the capture is the greedy digit run from
that position.
-/
def trackfileCaps : List Char → Option Nat
  | [] => none
  | c :: cs =>
    if c.isDigit && hasSub flacTail cs then
      some (natOfDigits ((c :: cs).takeWhile Char.isDigit))
    else trackfileCaps cs

/-- get_track: scan the container entries in listing order and return the
first whose captured digit run parses to the requested track; otherwise
fail naming the track. -/
def get_track (track : Nat) : List (List Char) → Except Nat (List Char)
  | [] => .error track
  | e :: es =>
    match trackfileCaps e with
    | some t => if t = track then .ok e else get_track track es
    | none => get_track track es

/-- The input-resolution state of run: the two memoization caches keyed by
the literal reference string, the two per-track maps, and the list of
references that were actually resolved, in order. -/
structure InState (α : Type) where
  inputs_root : List (List Char × α)
  inputs_flac : List (List Char × α)
  input_map_roots : List (Nat × α)
  input_map_flacs : List (Nat × α)
  events : List (List Char)
deriving Repr, DecidableEq

def InState.init {α : Type} : InState α := ⟨[], [], [], [], []⟩

/--
The input-resolution loop of run.  The resolution of a reference
(get_input followed by search_input, with any archive extraction they
perform) is the external operation `resolve`, returning the root path and
the flac container path.  HashMap insertion is modelled by prepending to
an association list.  The error none stands for the panics of the source
(track unwrap and the missing-INPUT todo), some e for a resolution error.
The source tests only the inputs_root cache for the key; both caches are
always extended together, so the hit branch matches both lookups.
-/
def resolveInputs {α ε : Type} (resolve : List Char → Except ε (α × α)) :
    List Tag → InState α → Except (Option ε) (InState α)
  | [], st => .ok st
  | tag :: rest, st =>
    match tag.track with
    | none => .error none
    | some track =>
      match tag.input with
      | none => .error none
      | some input =>
        match st.inputs_root.lookup input, st.inputs_flac.lookup input with
        | some r, some f =>
          resolveInputs resolve rest
            { st with input_map_roots := (track, r) :: st.input_map_roots,
                      input_map_flacs := (track, f) :: st.input_map_flacs }
        | _, _ =>
          match resolve input with
          | .error e => .error (some e)
          | .ok (r, f) =>
            resolveInputs resolve rest
              { st with inputs_root := (input, r) :: st.inputs_root,
                        inputs_flac := (input, f) :: st.inputs_flac,
                        input_map_roots := (track, r) :: st.input_map_roots,
                        input_map_flacs := (track, f) :: st.input_map_flacs,
                        events := st.events ++ [input] }

/-- The cover-resolution state of run: the memoization cache keyed by the
literal cover string, the per-track map, and the references actually
resolved, in order. -/
structure CovState (α : Type) where
  covers : List (List Char × α)
  cover_map : List (Nat × α)
  cevents : List (List Char)
deriving Repr, DecidableEq

def CovState.init {α : Type} : CovState α := ⟨[], [], []⟩

/--
The cover-resolution loop of run.  get_cover on the joined path
input_map_roots[track] / cover is the external operation, a function of
the resolved root and the literal cover string.  The error none stands for
the panics of the source (track unwrap, root map indexing).
-/
def resolveCovers {α ε : Type} (get_cover : α → List Char → Except ε α)
    (roots : List (Nat × α)) :
    List Tag → CovState α → Except (Option ε) (CovState α)
  | [], st => .ok st
  | tag :: rest, st =>
    match tag.track with
    | none => .error none
    | some track =>
      match tag.cover with
      | none => resolveCovers get_cover roots rest st
      | some cover =>
        match st.covers.lookup cover with
        | some p =>
          resolveCovers get_cover roots rest
            { st with cover_map := (track, p) :: st.cover_map }
        | none =>
          match roots.lookup track with
          | none => .error none
          | some root =>
            match get_cover root cover with
            | .error e => .error (some e)
            | .ok p =>
              resolveCovers get_cover roots rest
                { st with covers := (cover, p) :: st.covers,
                          cover_map := (track, p) :: st.cover_map,
                          cevents := st.cevents ++ [cover] }

/-- The padding computation of run: digit count of the maximum track
number; none models the unwrap panics on an empty tag list or an unset
track. -/
def paddingOf (tags : List Tag) : Option Nat :=
  match tags.mapM (fun t => t.track) with
  | none => none
  | some ts =>
    match ts.max? with
    | none => none
    | some m => some (natDecimal m).length

/-- usize subtraction: none models the underflow panic. -/
def usizeSub (a b : Nat) : Option Nat :=
  if b ≤ a then some (a - b) else none

/-- Observable events of the recompression scheduler: job launches and
waits on the encode child process. -/
inductive SEv where
  | launch (j : Nat)
  | waitOk (j : Nat)
  | waitFail (j : Nat)
deriving Repr, DecidableEq

def isFail : SEv → Bool
  | .waitFail _ => true
  | _ => false

def launchIdx : SEv → Option Nat
  | .launch j => some j
  | _ => none

/-- The drain loop of recompression: wait on every remaining in-flight
job in FIFO order, aborting at the first unsuccessful exit. -/
def drainLoop (enc : Nat → Bool) : List Nat → List SEv → List SEv
  | [], evs => evs
  | w :: ws, evs =>
    if enc w then drainLoop enc ws (evs ++ [SEv.waitOk w])
    else evs ++ [SEv.waitFail w]

/-- The main scheduling loop: launch the next pending job, then wait on
the oldest in-flight job, aborting at the first unsuccessful exit. -/
def mainLoop (enc : Nat → Bool) : List Nat → List Nat → List SEv → List SEv
  | [], working, evs => drainLoop enc working evs
  | j :: pending, [], evs =>
    if enc j then mainLoop enc pending [] (evs ++ [SEv.launch j, SEv.waitOk j])
    else evs ++ [SEv.launch j, SEv.waitFail j]
  | j :: pending, w :: ws, evs =>
    if enc w then mainLoop enc pending (ws ++ [j]) (evs ++ [SEv.launch j, SEv.waitOk w])
    else evs ++ [SEv.launch j, SEv.waitFail w]

/-- The encode exit status of a job; the first component of a job, the
decode exit status, is never consulted by the scheduler. -/
def encOf (jobs : List (Bool × Bool)) (j : Nat) : Bool :=
  ((jobs.get? j).map (fun b => b.2)).getD false

/--
The recompression phase of run over the job list (decode status, encode
status per job, in parse order): launch min(total, cnt) - 1 jobs up front,
then run the launch-then-wait loop and the drain loop.  none models the
usize underflow panic of the prefill bound on an empty job list.
-/
def recompressRun (jobs : List (Bool × Bool)) (cnt : Nat) : Option (List SEv) :=
  match usizeSub (min jobs.length cnt) 1 with
  | none => none
  | some p =>
    let ids := List.range jobs.length
    some (mainLoop (encOf jobs) (ids.drop p) (ids.take p) ((ids.take p).map SEv.launch))

/-- Anchored whole-line match of one field pattern, for the grammar as the
spec words it: the field name at the start of the line, an optional
bracketed decimal index, an equals sign, and a value accepted in full. -/
def fieldAnchored (name : List Char) (okVal : List Char → Bool) (l : List Char) : Bool :=
  match dropPre name l with
  | none => false
  | some r =>
    match bracketEq r with
    | none => false
    | some (_, r3) => okVal r3

def valAnyFull (_ : List Char) : Bool := true

def valDigitsFull (cs : List Char) : Bool := !cs.isEmpty && cs.all Char.isDigit

def valDateFull : List Char → Bool
  | [a, b, c, d, '-', e, f, '-', g, h] => [a, b, c, d, e, f, g, h].all Char.isDigit
  | _ => false

/-- Modelled from the spec grammar: the whole line is exactly one field
assignment of one of the thirteen recognized fields. -/
def lineWellFormed (l : List Char) : Bool :=
  fieldAnchored nINPUT valAnyFull l || fieldAnchored nTITLE valAnyFull l ||
  fieldAnchored nARTIST valAnyFull l || fieldAnchored nLYRICIST valAnyFull l ||
  fieldAnchored nCOMPOSER valAnyFull l || fieldAnchored nARRANGER valAnyFull l ||
  fieldAnchored nALBUM valAnyFull l || fieldAnchored nDISC valDigitsFull l ||
  fieldAnchored nGENRE valAnyFull l || fieldAnchored nDATE valDateFull l ||
  fieldAnchored nLABEL valAnyFull l || fieldAnchored nCOMMENT valAnyFull l ||
  fieldAnchored nCOVER valAnyFull l

/-- Whether some field regex of the parser finds a match in the line. -/
def matchesAnyField (l : List Char) : Bool :=
  (scanWith nINPUT valAny l).isSome || (scanWith nTITLE valAny l).isSome ||
  (scanWith nARTIST valAny l).isSome || (scanWith nLYRICIST valAny l).isSome ||
  (scanWith nCOMPOSER valAny l).isSome || (scanWith nARRANGER valAny l).isSome ||
  (scanWith nALBUM valAny l).isSome || (scanWith nDISC valDigits l).isSome ||
  (scanWith nGENRE valAny l).isSome || (scanWith nDATE valDate l).isSome ||
  (scanWith nLABEL valAny l).isSome || (scanWith nCOMMENT valAny l).isSome ||
  (scanWith nCOVER valAny l).isSome

/--
The effective record target of a line under the dispatch order of
lineStep: none when no field regex matches, some none for an unbracketed
field line, some (some n) when the line updates the record for track n.
In the DISC arm the target is the parsed disc value, as in the source.
-/
def lineOid (l : List Char) : Option (Option Nat) :=
  match scanWith nINPUT valAny l with
  | some (oid, _) => some oid
  | none =>
    match scanWith nTITLE valAny l with
    | some (oid, _) => some oid
    | none =>
      match scanWith nARTIST valAny l with
      | some (oid, _) => some oid
      | none =>
        match scanWith nLYRICIST valAny l with
        | some (oid, _) => some oid
        | none =>
          match scanWith nCOMPOSER valAny l with
          | some (oid, _) => some oid
          | none =>
            match scanWith nARRANGER valAny l with
            | some (oid, _) => some oid
            | none =>
              match scanWith nALBUM valAny l with
              | some (oid, _) => some oid
              | none =>
                match scanWith nDISC valDigits l with
                | some (oid, d) => some (oid.map fun _ => d)
                | none =>
                  match scanWith nGENRE valAny l with
                  | some (oid, _) => some oid
                  | none =>
                    match scanWith nDATE valDate l with
                    | some (oid, _) => some oid
                    | none =>
                      match scanWith nLABEL valAny l with
                      | some (oid, _) => some oid
                      | none =>
                        match scanWith nCOMMENT valAny l with
                        | some (oid, _) => some oid
                        | none =>
                          match scanWith nCOVER valAny l with
                          | some (oid, _) => some oid
                          | none => none

/-- Modelled from the claim wording of C5, read literally: the padded
track number followed by the dot-space separator in every case, then the
slash-cleaned artist/title portion, then the extension. -/
def specC5Literal (tag : Tag) (padding : Nat) : Option (List (List Char)) :=
  match tag.track with
  | none => none
  | some tr =>
    let discPart : List (List Char) :=
      match tag.disc with
      | some d => ["Disc ".toList ++ natDecimal d]
      | none => []
    let portion : List Char :=
      match tag.artist, tag.title with
      | some artist, some title => replaceSlash artist ++ " - ".toList ++ replaceSlash title
      | some artist, none => replaceSlash artist
      | none, some title => replaceSlash title
      | none, none => []
    some (discPart ++ [zeroPad tr padding ++ ". ".toList ++ portion ++ ".flac".toList])

/-- The amended per-track path: as the claim words it, except that the
dot-space separator is omitted when neither artist nor title is present. -/
def specC5Amended (tag : Tag) (padding : Nat) : Option (List (List Char)) :=
  match tag.track with
  | none => none
  | some tr =>
    let discPart : List (List Char) :=
      match tag.disc with
      | some d => ["Disc ".toList ++ natDecimal d]
      | none => []
    let fname : List Char :=
      match tag.artist, tag.title with
      | some artist, some title =>
        zeroPad tr padding ++ ". ".toList ++ replaceSlash artist ++
          " - ".toList ++ replaceSlash title ++ ".flac".toList
      | some artist, none =>
        zeroPad tr padding ++ ". ".toList ++ replaceSlash artist ++ ".flac".toList
      | none, some title =>
        zeroPad tr padding ++ ". ".toList ++ replaceSlash title ++ ".flac".toList
      | none, none => zeroPad tr padding ++ ".flac".toList
    some (discPart ++ [fname])

/-- Modelled from the claim wording of C6: the first contiguous digit run
of the name, accepted when the flac extension occurs after it. -/
def firstRunCand (name : List Char) : Option Nat :=
  let ds := (name.dropWhile (fun c => !c.isDigit)).takeWhile Char.isDigit
  let tl := (name.dropWhile (fun c => !c.isDigit)).dropWhile Char.isDigit
  if ds.isEmpty then none
  else if hasSub flacTail tl then some (natOfDigits ds) else none

def tagsAfter (tags : List Tag) (g : Tag) (oid : Option Nat) (set : Tag → Tag) :
    List Tag :=
  match oid with
  | none => tags
  | some n => setOrCreate tags g n set

def globalAfter (g : Tag) (oid : Option Nat) (set : Tag → Tag) : Tag :=
  match oid with
  | none => set g
  | some _ => g

theorem withWarn_tags (st : PState) (w : Bool) (l : List Char) :
    (withWarn st w l).tags = st.tags := by
  unfold withWarn; split <;> rfl

theorem withWarn_global (st : PState) (w : Bool) (l : List Char) :
    (withWarn st w l).global_tag = st.global_tag := by
  unfold withWarn; split <;> rfl

theorem applyField_eta (st : PState) (oid : Option Nat) (set : Tag → Tag) :
    applyField st oid set =
      ⟨tagsAfter st.tags st.global_tag oid set, globalAfter st.global_tag oid set,
       st.warnings⟩ := by
  cases oid <;> rfl

theorem textApply_eta (st : PState) (l : List Char) (oid : Option Nat)
    (v : List Char) (set : Option (List Char) → Tag → Tag) :
    textApply st l oid v set =
      ⟨tagsAfter st.tags st.global_tag oid (set (some (trimChars v))),
       globalAfter st.global_tag oid (set (some (trimChars v))),
       (withWarn st (decide (trimChars v ≠ v)) l).warnings⟩ := by
  unfold textApply
  rw [applyField_eta, withWarn_tags, withWarn_global]

/--
Master case analysis of one parser line: either no field regex matches and
the line is not consumed, or the line acts through exactly one
track-preserving field setter, on the record store when bracketed and on
the running default otherwise.
-/
theorem lineStep_shape (st : PState) (l : List Char) :
    (lineOid l = none ∧ matchesAnyField l = false ∧ lineStep st l = none) ∨
    (∃ oid set w, lineOid l = some oid ∧ matchesAnyField l = true ∧
      (∀ t : Tag, (set t).track = t.track) ∧
      lineStep st l = some ⟨tagsAfter st.tags st.global_tag oid set,
        globalAfter st.global_tag oid set, w⟩) := by
  cases h1 : scanWith nINPUT valAny l with
  | some p =>
    obtain ⟨oid, v⟩ := p
    refine Or.inr ⟨oid, fun t => { t with input := some v },
      st.warnings, ?_, ?_, fun t => rfl, ?_⟩
    · simp [lineOid, h1]
    · simp [matchesAnyField, h1]
    · simp [lineStep, h1, applyField_eta]
  | none =>
    cases h2 : scanWith nTITLE valAny l with
    | some p =>
      obtain ⟨oid, v⟩ := p
      refine Or.inr ⟨oid, fun t => { t with title := some (trimChars v) },
        (withWarn st (decide (trimChars v ≠ v)) l).warnings, ?_, ?_, fun t => rfl, ?_⟩
      · simp [lineOid, h1, h2]
      · simp [matchesAnyField, h2]
      · simp [lineStep, h1, h2, textApply_eta]
    | none =>
      cases h3 : scanWith nARTIST valAny l with
      | some p =>
        obtain ⟨oid, v⟩ := p
        refine Or.inr ⟨oid, fun t => { t with artist := some (trimChars v) },
          (withWarn st (decide (trimChars v ≠ v)) l).warnings, ?_, ?_, fun t => rfl, ?_⟩
        · simp [lineOid, h1, h2, h3]
        · simp [matchesAnyField, h3]
        · simp [lineStep, h1, h2, h3, textApply_eta]
      | none =>
        cases h4 : scanWith nLYRICIST valAny l with
        | some p =>
          obtain ⟨oid, v⟩ := p
          refine Or.inr ⟨oid, fun t => { t with lyricist := some (trimChars v) },
            (withWarn st (decide (trimChars v ≠ v)) l).warnings, ?_, ?_, fun t => rfl, ?_⟩
          · simp [lineOid, h1, h2, h3, h4]
          · simp [matchesAnyField, h4]
          · simp [lineStep, h1, h2, h3, h4, textApply_eta]
        | none =>
          cases h5 : scanWith nCOMPOSER valAny l with
          | some p =>
            obtain ⟨oid, v⟩ := p
            refine Or.inr ⟨oid, fun t => { t with composer := some (trimChars v) },
              (withWarn st (decide (trimChars v ≠ v)) l).warnings, ?_, ?_, fun t => rfl, ?_⟩
            · simp [lineOid, h1, h2, h3, h4, h5]
            · simp [matchesAnyField, h5]
            · simp [lineStep, h1, h2, h3, h4, h5, textApply_eta]
          | none =>
            cases h6 : scanWith nARRANGER valAny l with
            | some p =>
              obtain ⟨oid, v⟩ := p
              refine Or.inr ⟨oid, fun t => { t with arranger := some (trimChars v) },
                (withWarn st (decide (trimChars v ≠ v)) l).warnings, ?_, ?_, fun t => rfl, ?_⟩
              · simp [lineOid, h1, h2, h3, h4, h5, h6]
              · simp [matchesAnyField, h6]
              · simp [lineStep, h1, h2, h3, h4, h5, h6, textApply_eta]
            | none =>
              cases h7 : scanWith nALBUM valAny l with
              | some p =>
                obtain ⟨oid, v⟩ := p
                refine Or.inr ⟨oid, fun t => { t with album := some (trimChars v) },
                  (withWarn st (decide (trimChars v ≠ v)) l).warnings, ?_, ?_, fun t => rfl, ?_⟩
                · simp [lineOid, h1, h2, h3, h4, h5, h6, h7]
                · simp [matchesAnyField, h7]
                · simp [lineStep, h1, h2, h3, h4, h5, h6, h7, textApply_eta]
              | none =>
                cases h8 : scanWith nDISC valDigits l with
                | some p =>
                  obtain ⟨oid, d⟩ := p
                  refine Or.inr ⟨oid.map fun _ => d, fun t => { t with disc := some d },
                    st.warnings, ?_, ?_, fun t => rfl, ?_⟩
                  · simp [lineOid, h1, h2, h3, h4, h5, h6, h7, h8]
                  · simp [matchesAnyField, h8]
                  · simp [lineStep, h1, h2, h3, h4, h5, h6, h7, h8, applyField_eta]
                | none =>
                  cases h9 : scanWith nGENRE valAny l with
                  | some p =>
                    obtain ⟨oid, v⟩ := p
                    refine Or.inr ⟨oid, fun t => { t with genre := some (trimChars v) },
                      (withWarn st (decide (trimChars v ≠ v)) l).warnings, ?_, ?_, fun t => rfl, ?_⟩
                    · simp [lineOid, h1, h2, h3, h4, h5, h6, h7, h8, h9]
                    · simp [matchesAnyField, h9]
                    · simp [lineStep, h1, h2, h3, h4, h5, h6, h7, h8, h9, textApply_eta]
                  | none =>
                    cases h10 : scanWith nDATE valDate l with
                    | some p =>
                      obtain ⟨oid, dt⟩ := p
                      refine Or.inr ⟨oid, fun t => { t with date := some dt },
                        st.warnings, ?_, ?_, fun t => rfl, ?_⟩
                      · simp [lineOid, h1, h2, h3, h4, h5, h6, h7, h8, h9, h10]
                      · simp [matchesAnyField, h10]
                      · simp [lineStep, h1, h2, h3, h4, h5, h6, h7, h8, h9, h10, applyField_eta]
                    | none =>
                      cases h11 : scanWith nLABEL valAny l with
                      | some p =>
                        obtain ⟨oid, v⟩ := p
                        refine Or.inr ⟨oid, fun t => { t with label := some (trimChars v) },
                          (withWarn st (decide (trimChars v ≠ v)) l).warnings, ?_, ?_, fun t => rfl, ?_⟩
                        · simp [lineOid, h1, h2, h3, h4, h5, h6, h7, h8, h9, h10, h11]
                        · simp [matchesAnyField, h11]
                        · simp [lineStep, h1, h2, h3, h4, h5, h6, h7, h8, h9, h10, h11, textApply_eta]
                      | none =>
                        cases h12 : scanWith nCOMMENT valAny l with
                        | some p =>
                          obtain ⟨oid, v⟩ := p
                          refine Or.inr ⟨oid, fun t => { t with comment := some (trimChars v) },
                            (withWarn st (decide (trimChars v ≠ v)) l).warnings, ?_, ?_, fun t => rfl, ?_⟩
                          · simp [lineOid, h1, h2, h3, h4, h5, h6, h7, h8, h9, h10, h11, h12]
                          · simp [matchesAnyField, h12]
                          · simp [lineStep, h1, h2, h3, h4, h5, h6, h7, h8, h9, h10, h11, h12, textApply_eta]
                        | none =>
                          cases h13 : scanWith nCOVER valAny l with
                          | some p =>
                            obtain ⟨oid, v⟩ := p
                            refine Or.inr ⟨oid, fun t => { t with cover := some v },
                              st.warnings, ?_, ?_, fun t => rfl, ?_⟩
                            · simp [lineOid, h1, h2, h3, h4, h5, h6, h7, h8, h9, h10, h11, h12, h13]
                            · simp [matchesAnyField, h13]
                            · simp [lineStep, h1, h2, h3, h4, h5, h6, h7, h8, h9, h10, h11, h12, h13, applyField_eta]
                          | none =>
                            refine Or.inl ⟨?_, ?_, ?_⟩
                            · simp [lineOid, h1, h2, h3, h4, h5, h6, h7, h8, h9, h10, h11, h12, h13]
                            · simp [matchesAnyField, h1, h2, h3, h4, h5, h6, h7, h8, h9, h10, h11, h12, h13]
                            · simp [lineStep, h1, h2, h3, h4, h5, h6, h7, h8, h9, h10, h11, h12, h13]

/-- The track keys of the record list, in list order. -/
def keysOf (tags : List Tag) : List (Option Nat) := tags.map fun t => t.track

theorem updateFirst_keys (p : Tag → Bool) (f : Tag → Tag)
    (hf : ∀ t, (f t).track = t.track) :
    ∀ l, keysOf (updateFirst p f l) = keysOf l := by
  intro l
  induction l with
  | nil => rfl
  | cons t ts ih =>
    unfold updateFirst
    split
    · simp [keysOf, hf]
    · simpa [keysOf] using ih

theorem updateFirst_track_ne_none (p : Tag → Bool) (f : Tag → Tag)
    (hf : ∀ t, (f t).track = t.track) :
    ∀ l, (∀ t ∈ l, t.track ≠ none) → ∀ t ∈ updateFirst p f l, t.track ≠ none := by
  intro l
  induction l with
  | nil => intro _ t ht; cases ht
  | cons a as ih =>
    intro hall
    unfold updateFirst
    split
    · intro t ht
      rcases List.mem_cons.mp ht with rfl | hmem
      · rw [hf]
        exact hall a (by simp)
      · exact hall t (by simp [hmem])
    · intro t ht
      rcases List.mem_cons.mp ht with rfl | hmem
      · exact hall t (by simp)
      · exact ih (fun s hs => hall s (by simp [hs])) t hmem

theorem any_track_eq_false_iff (tags : List Tag) (n : Nat) :
    tags.any (fun t => t.track == some n) = false ↔ some n ∉ keysOf tags := by
  simp [keysOf, List.any_eq_true, List.mem_map]

theorem tagsAfter_some (tags : List Tag) (g : Tag) (n : Nat) (set : Tag → Tag) :
    tagsAfter tags g (some n) set = setOrCreate tags g n set := rfl

theorem tagsAfter_keys (tags : List Tag) (g : Tag) (oid : Option Nat)
    (set : Tag → Tag) (hset : ∀ t, (set t).track = t.track) :
    keysOf (tagsAfter tags g oid set) = keysOf tags ∨
      ∃ n, some n ∉ keysOf tags ∧
        keysOf (tagsAfter tags g oid set) = keysOf tags ++ [some n] := by
  cases oid with
  | none => exact Or.inl rfl
  | some n =>
    rw [tagsAfter_some]
    unfold setOrCreate
    by_cases hA : tags.any (fun t => t.track == some n) = true
    · rw [if_pos hA]
      exact Or.inl (updateFirst_keys _ _ hset tags)
    · rw [if_neg hA]
      refine Or.inr ⟨n, (any_track_eq_false_iff tags n).mp (by simpa using hA), ?_⟩
      simp [keysOf, hset]

theorem tagsAfter_track_ne_none (tags : List Tag) (g : Tag) (oid : Option Nat)
    (set : Tag → Tag) (hset : ∀ t, (set t).track = t.track)
    (h : ∀ t ∈ tags, t.track ≠ none) :
    ∀ t ∈ tagsAfter tags g oid set, t.track ≠ none := by
  cases oid with
  | none => exact h
  | some n =>
    rw [tagsAfter_some]
    unfold setOrCreate
    by_cases hA : tags.any (fun t => t.track == some n) = true
    · rw [if_pos hA]
      exact updateFirst_track_ne_none _ _ hset tags h
    · rw [if_neg hA]
      intro t ht
      rcases List.mem_append.mp ht with hmem | hmem
      · exact h t hmem
      · rcases List.mem_singleton.mp hmem with rfl
        rw [hset]
        simp

/-- parseLine succeeds either by consuming a field line or by skipping an
empty line. -/
theorem parseLine_ok_cases (st : PState) (l : List Char) (st2 : PState)
    (h : parseLine st l = .ok st2) :
    lineStep st l = some st2 ∨ (st2 = st ∧ l = []) := by
  unfold parseLine at h
  cases hs : lineStep st l with
  | some st3 =>
    rw [hs] at h
    cases h
    exact Or.inl rfl
  | none =>
    rw [hs] at h
    by_cases hl : l = []
    · rw [if_pos hl] at h
      cases h
      exact Or.inr ⟨rfl, hl⟩
    · rw [if_neg hl] at h
      cases h

theorem lineStep_preserves (st : PState) (l : List Char) (st2 : PState)
    (h : lineStep st l = some st2)
    (hA : ∀ t ∈ st.tags, t.track ≠ none) (hN : (keysOf st.tags).Nodup) :
    (∀ t ∈ st2.tags, t.track ≠ none) ∧ (keysOf st2.tags).Nodup := by
  rcases lineStep_shape st l with ⟨_, _, hnone⟩ | ⟨oid, set, w, _, _, hset, hsome⟩
  · rw [h] at hnone
    cases hnone
  · rw [h] at hsome
    have h2 : st2 = ⟨tagsAfter st.tags st.global_tag oid set,
        globalAfter st.global_tag oid set, w⟩ := by
      cases hsome
      rfl
    subst h2
    refine ⟨tagsAfter_track_ne_none _ _ _ _ hset hA, ?_⟩
    rcases tagsAfter_keys st.tags st.global_tag oid set hset with he | ⟨n, hn, he⟩
    · rw [he]
      exact hN
    · rw [he]
      simp [List.nodup_append, hN, hn]

theorem parseLines_inv :
    ∀ (ls : List (List Char)) (st st' : PState),
      parseLines st ls = .ok st' →
      (∀ t ∈ st.tags, t.track ≠ none) → (keysOf st.tags).Nodup →
      (∀ t ∈ st'.tags, t.track ≠ none) ∧ (keysOf st'.tags).Nodup := by
  intro ls
  induction ls with
  | nil =>
    intro st st' h hA hN
    cases h
    exact ⟨hA, hN⟩
  | cons l ls ih =>
    intro st st' h hA hN
    unfold parseLines at h
    cases hp : parseLine st l with
    | error e =>
      rw [hp] at h
      cases h
    | ok st2 =>
      rw [hp] at h
      rcases parseLine_ok_cases st l st2 hp with hstep | ⟨rfl, _⟩
      · obtain ⟨hA2, hN2⟩ := lineStep_preserves st l st2 hstep hA hN
        exact ih st2 st' h hA2 hN2
      · exact ih _ st' h hA hN

/-- C3: every accepted metadata file yields records whose track field is
set, with pairwise distinct track numbers; and each consumed line either
leaves the key sequence unchanged or appends one fresh track key at the
end, so records appear in first-mention order. -/
theorem c3_unique_tracks_first_mention :
    (∀ ls tags, parse_trackinfo ls = .ok tags →
      (∀ t ∈ tags, t.track ≠ none) ∧ (keysOf tags).Nodup)
  ∧ (∀ st l st2, lineStep st l = some st2 →
      keysOf st2.tags = keysOf st.tags ∨
        ∃ n, some n ∉ keysOf st.tags ∧ keysOf st2.tags = keysOf st.tags ++ [some n]) := by
  constructor
  · intro ls tags h
    unfold parse_trackinfo at h
    cases hp : parseLines initPState ls with
    | error e =>
      rw [hp] at h
      cases h
    | ok st' =>
      rw [hp] at h
      cases h
      exact parseLines_inv ls initPState st' hp (by intro t ht; cases ht) (by simp [keysOf, initPState])
  · intro st l st2 h
    rcases lineStep_shape st l with ⟨_, _, hnone⟩ | ⟨oid, set, w, _, _, hset, hsome⟩
    · rw [h] at hnone
      cases hnone
    · rw [h] at hsome
      have h2 : st2 = ⟨tagsAfter st.tags st.global_tag oid set,
          globalAfter st.global_tag oid set, w⟩ := by
        cases hsome
        rfl
      subst h2
      exact tagsAfter_keys st.tags st.global_tag oid set hset

/-- C3 witness: the two-track ordering file satisfies the invariant. -/
theorem c3_witness :
    (∀ t ∈ [exTag1, exTag2], t.track ≠ none) ∧ (keysOf [exTag1, exTag2]).Nodup :=
  c3_unique_tracks_first_mention.1
    ["ARTIST=1".toList, "TITLE[1]=x".toList, "ARTIST=2".toList, "TITLE[2]=y".toList]
    [exTag1, exTag2] (by decide)

/-- C1: an unbracketed field line never changes existing records; a
bracketed line never changes the running default, and when its track is
fresh it appends a record that is the running default with the track and
the one field overwritten; and the ordering example from the spec. -/
theorem c1_snapshot_merge :
    (∀ st l st2, lineOid l = some none → parseLine st l = .ok st2 → st2.tags = st.tags)
  ∧ (∀ st l st2 n, lineOid l = some (some n) → parseLine st l = .ok st2 →
      st2.global_tag = st.global_tag ∧
      (some n ∉ keysOf st.tags →
        ∃ set : Tag → Tag, (∀ t : Tag, (set t).track = t.track) ∧
          st2.tags = st.tags ++ [set { st.global_tag with track := some n }]))
  ∧ parse_trackinfo ["ARTIST=1".toList, "TITLE[1]=x".toList, "ARTIST=2".toList,
      "TITLE[2]=y".toList] = .ok [exTag1, exTag2] := by
  refine ⟨?_, ?_, by decide⟩
  · intro st l st2 hoid hok
    rcases parseLine_ok_cases st l st2 hok with hstep | ⟨rfl, rfl⟩
    · rcases lineStep_shape st l with ⟨hn, _, _⟩ | ⟨oid, set, w, hoid2, _, hset, hsome⟩
      · rw [hn] at hoid
        cases hoid
      · rw [hstep] at hsome
        have hov : oid = none := by
          rw [hoid] at hoid2
          cases hoid2
          rfl
        subst hov
        have h2 : st2 = ⟨tagsAfter st.tags st.global_tag none set,
            globalAfter st.global_tag none set, w⟩ := by
          cases hsome
          rfl
        subst h2
        rfl
    · exact absurd hoid (by decide)
  · intro st l st2 n hoid hok
    rcases parseLine_ok_cases st l st2 hok with hstep | ⟨rfl, rfl⟩
    · rcases lineStep_shape st l with ⟨hn, _, _⟩ | ⟨oid, set, w, hoid2, _, hset, hsome⟩
      · rw [hn] at hoid
        cases hoid
      · rw [hstep] at hsome
        have hov : oid = some n := by
          rw [hoid] at hoid2
          cases hoid2
          rfl
        subst hov
        have h2 : st2 = ⟨tagsAfter st.tags st.global_tag (some n) set,
            globalAfter st.global_tag (some n) set, w⟩ := by
          cases hsome
          rfl
        subst h2
        refine ⟨rfl, fun hfresh => ⟨set, hset, ?_⟩⟩
        have hA : st.tags.any (fun t => t.track == some n) = false :=
          (any_track_eq_false_iff st.tags n).mpr hfresh
        show tagsAfter st.tags st.global_tag (some n) set = _
        rw [tagsAfter_some]
        unfold setOrCreate
        rw [if_neg (by simp [hA])]
    · have hle : lineOid ([] : List Char) = none := rfl
      rw [hle] at hoid
      cases hoid

/-- The parser state after the unbracketed ARTIST line of the witness. -/
def exStArtist : PState := ⟨[], { Tag.new with artist := some "z".toList }, []⟩

/-- C1 witness: a concrete unbracketed line leaves the record list
unchanged. -/
theorem c1_witness : exStArtist.tags = initPState.tags :=
  c1_snapshot_merge.1 initPState ("ARTIST=z".toList) exStArtist (by decide) (by decide)

/-- C7 (amended): a line is rejected, with a fatal error naming exactly
that line, precisely when it is non-empty and no recognized field pattern
occurs in it as an unanchored substring match. -/
theorem c7_amended :
    ∀ st l, parseLine st l = Except.error l ↔ (l ≠ [] ∧ matchesAnyField l = false) := by
  intro st l
  rcases lineStep_shape st l with ⟨_, hm, hstep⟩ | ⟨oid, set, w, _, hm, _, hstep⟩
  · unfold parseLine
    rw [hstep]
    by_cases hl : l = []
    · rw [if_pos hl]
      simp [hl]
    · rw [if_neg hl]
      simp [hl, hm]
  · unfold parseLine
    rw [hstep]
    simp [hm]

/-- C7 counterexample: a non-empty line that is not a whole-line field
assignment of the grammar is nevertheless accepted, because the regex
search is unanchored. -/
theorem c7_counterexample :
    lineWellFormed ("xINPUT=y".toList) = false ∧ ("xINPUT=y".toList) ≠ [] ∧
    parse_trackinfo [("xINPUT=y".toList)] = .ok [] := by decide

/-- C7 witness: a concrete garbage line is rejected and the error names
the line. -/
theorem c7_witness : parseLine initPState ("FOO".toList) = Except.error ("FOO".toList) :=
  (c7_amended initPState ("FOO".toList)).mpr (by decide)

/-- The record that parsing DISC[5]=2 actually produces. -/
def exTagDisc : Tag := { Tag.new with track := some 2, disc := some 2 }

/-- C2: on the line DISC[5]=2 the parser creates the record for track 2,
the parsed disc value, with the bracket index 5 parsed but ignored,
contrary to the grammar sentence of the spec. -/
theorem c2_disc_value_used_as_track :
    parse_trackinfo [("DISC[5]=2".toList)] = .ok [exTagDisc] ∧
    exTagDisc.track = some 2 ∧ exTagDisc.disc = some 2 := by decide

/-- Parser state after INPUT= x : value stored verbatim, no warning. -/
def exStInput : PState := ⟨[], { Tag.new with input := some " x ".toList }, []⟩

/-- Parser state after COVER= x : value stored verbatim, no warning. -/
def exStCover : PState := ⟨[], { Tag.new with cover := some " x ".toList }, []⟩

/-- Parser state after TITLE= x : value trimmed and the line warned. -/
def exStTitleW : PState := ⟨[], { Tag.new with title := some "x".toList }, ["TITLE= x ".toList]⟩

/-- Parser state after TITLE=x: value unchanged, no warning. -/
def exStTitleN : PState := ⟨[], { Tag.new with title := some "x".toList }, []⟩

/-- C8 counterexample: an INPUT reference with surrounding whitespace is
stored untrimmed and no warning is emitted. -/
theorem c8_counterexample :
    parseLines initPState [("INPUT= x ".toList)] = .ok exStInput ∧
    trimChars (" x ".toList) ≠ (" x ".toList) := by decide

/-- C8 (amended): every free-text field arm stores the trimmed value and
warns exactly when trimming changed it (the generic clause over every
setter), and each of the nine free-text fields TITLE, ARTIST, LYRICIST,
COMPOSER, ARRANGER, ALBUM, GENRE, LABEL and COMMENT dispatches to that
arm; the INPUT and COVER reference strings are stored verbatim and never
produce a warning. -/
theorem c8_amended :
    (∀ st l oid v (set : Option (List Char) → Tag → Tag),
      (textApply st l oid v set).tags =
        tagsAfter st.tags st.global_tag oid (set (some (trimChars v))) ∧
      (textApply st l oid v set).global_tag =
        globalAfter st.global_tag oid (set (some (trimChars v))) ∧
      (textApply st l oid v set).warnings =
        (if trimChars v = v then st.warnings else st.warnings ++ [l]))
  ∧ (∀ st l oid v, scanWith nINPUT valAny l = some (oid, v) →
      parseLine st l = .ok (applyField st oid (fun t => { t with input := some v })) ∧
      (applyField st oid (fun t => { t with input := some v })).warnings = st.warnings)
  ∧ (∀ st l oid v,
      scanWith nINPUT valAny l = none →
      scanWith nTITLE valAny l = some (oid, v) →
      parseLine st l = .ok (textApply st l oid v (fun x t => { t with title := x })))
  ∧ (∀ st l oid v,
      scanWith nINPUT valAny l = none →
      scanWith nTITLE valAny l = none →
      scanWith nARTIST valAny l = some (oid, v) →
      parseLine st l = .ok (textApply st l oid v (fun x t => { t with artist := x })))
  ∧ (∀ st l oid v,
      scanWith nINPUT valAny l = none →
      scanWith nTITLE valAny l = none →
      scanWith nARTIST valAny l = none →
      scanWith nLYRICIST valAny l = some (oid, v) →
      parseLine st l = .ok (textApply st l oid v (fun x t => { t with lyricist := x })))
  ∧ (∀ st l oid v,
      scanWith nINPUT valAny l = none →
      scanWith nTITLE valAny l = none →
      scanWith nARTIST valAny l = none →
      scanWith nLYRICIST valAny l = none →
      scanWith nCOMPOSER valAny l = some (oid, v) →
      parseLine st l = .ok (textApply st l oid v (fun x t => { t with composer := x })))
  ∧ (∀ st l oid v,
      scanWith nINPUT valAny l = none →
      scanWith nTITLE valAny l = none →
      scanWith nARTIST valAny l = none →
      scanWith nLYRICIST valAny l = none →
      scanWith nCOMPOSER valAny l = none →
      scanWith nARRANGER valAny l = some (oid, v) →
      parseLine st l = .ok (textApply st l oid v (fun x t => { t with arranger := x })))
  ∧ (∀ st l oid v,
      scanWith nINPUT valAny l = none →
      scanWith nTITLE valAny l = none →
      scanWith nARTIST valAny l = none →
      scanWith nLYRICIST valAny l = none →
      scanWith nCOMPOSER valAny l = none →
      scanWith nARRANGER valAny l = none →
      scanWith nALBUM valAny l = some (oid, v) →
      parseLine st l = .ok (textApply st l oid v (fun x t => { t with album := x })))
  ∧ (∀ st l oid v,
      scanWith nINPUT valAny l = none →
      scanWith nTITLE valAny l = none →
      scanWith nARTIST valAny l = none →
      scanWith nLYRICIST valAny l = none →
      scanWith nCOMPOSER valAny l = none →
      scanWith nARRANGER valAny l = none →
      scanWith nALBUM valAny l = none →
      scanWith nDISC valDigits l = none →
      scanWith nGENRE valAny l = some (oid, v) →
      parseLine st l = .ok (textApply st l oid v (fun x t => { t with genre := x })))
  ∧ (∀ st l oid v,
      scanWith nINPUT valAny l = none →
      scanWith nTITLE valAny l = none →
      scanWith nARTIST valAny l = none →
      scanWith nLYRICIST valAny l = none →
      scanWith nCOMPOSER valAny l = none →
      scanWith nARRANGER valAny l = none →
      scanWith nALBUM valAny l = none →
      scanWith nDISC valDigits l = none →
      scanWith nGENRE valAny l = none →
      scanWith nDATE valDate l = none →
      scanWith nLABEL valAny l = some (oid, v) →
      parseLine st l = .ok (textApply st l oid v (fun x t => { t with label := x })))
  ∧ (∀ st l oid v,
      scanWith nINPUT valAny l = none →
      scanWith nTITLE valAny l = none →
      scanWith nARTIST valAny l = none →
      scanWith nLYRICIST valAny l = none →
      scanWith nCOMPOSER valAny l = none →
      scanWith nARRANGER valAny l = none →
      scanWith nALBUM valAny l = none →
      scanWith nDISC valDigits l = none →
      scanWith nGENRE valAny l = none →
      scanWith nDATE valDate l = none →
      scanWith nLABEL valAny l = none →
      scanWith nCOMMENT valAny l = some (oid, v) →
      parseLine st l = .ok (textApply st l oid v (fun x t => { t with comment := x })))
  ∧ (∀ st l oid v,
      scanWith nINPUT valAny l = none →
      scanWith nTITLE valAny l = none →
      scanWith nARTIST valAny l = none →
      scanWith nLYRICIST valAny l = none →
      scanWith nCOMPOSER valAny l = none →
      scanWith nARRANGER valAny l = none →
      scanWith nALBUM valAny l = none →
      scanWith nDISC valDigits l = none →
      scanWith nGENRE valAny l = none →
      scanWith nDATE valDate l = none →
      scanWith nLABEL valAny l = none →
      scanWith nCOMMENT valAny l = none →
      scanWith nCOVER valAny l = some (oid, v) →
      parseLine st l = .ok (applyField st oid (fun t => { t with cover := some v })) ∧
      (applyField st oid (fun t => { t with cover := some v })).warnings = st.warnings)
  ∧ parseLines initPState [("TITLE= x ".toList)] = .ok exStTitleW
  ∧ parseLines initPState [("TITLE=x".toList)] = .ok exStTitleN
  ∧ parseLines initPState [("COVER= x ".toList)] = .ok exStCover
  ∧ parseLines initPState [("INPUT= x ".toList)] = .ok exStInput := by
  refine ⟨?_, ?_, ?_, ?_, ?_, ?_, ?_, ?_, ?_, ?_, ?_, ?_, by decide, by decide, by decide, by decide⟩
  · intro st l oid v set
    refine ⟨?_, ?_, ?_⟩
    · rw [textApply_eta]
    · rw [textApply_eta]
    · rw [textApply_eta]
      show (withWarn st (decide (trimChars v ≠ v)) l).warnings = _
      by_cases hv : trimChars v = v
      · simp [withWarn, hv]
      · simp [withWarn, hv]
  · intro st l oid v h1
    refine ⟨?_, ?_⟩
    · unfold parseLine
      have hs : lineStep st l =
          some (applyField st oid (fun t => { t with input := some v })) := by
        simp [lineStep, h1]
      rw [hs]
    · rw [applyField_eta]
  · intro st l oid v h1 hsome
    unfold parseLine
    have hs : lineStep st l =
        some (textApply st l oid v (fun x t => { t with title := x })) := by
      simp [lineStep, h1, hsome]
    rw [hs]
  · intro st l oid v h1 h2 hsome
    unfold parseLine
    have hs : lineStep st l =
        some (textApply st l oid v (fun x t => { t with artist := x })) := by
      simp [lineStep, h1, h2, hsome]
    rw [hs]
  · intro st l oid v h1 h2 h3 hsome
    unfold parseLine
    have hs : lineStep st l =
        some (textApply st l oid v (fun x t => { t with lyricist := x })) := by
      simp [lineStep, h1, h2, h3, hsome]
    rw [hs]
  · intro st l oid v h1 h2 h3 h4 hsome
    unfold parseLine
    have hs : lineStep st l =
        some (textApply st l oid v (fun x t => { t with composer := x })) := by
      simp [lineStep, h1, h2, h3, h4, hsome]
    rw [hs]
  · intro st l oid v h1 h2 h3 h4 h5 hsome
    unfold parseLine
    have hs : lineStep st l =
        some (textApply st l oid v (fun x t => { t with arranger := x })) := by
      simp [lineStep, h1, h2, h3, h4, h5, hsome]
    rw [hs]
  · intro st l oid v h1 h2 h3 h4 h5 h6 hsome
    unfold parseLine
    have hs : lineStep st l =
        some (textApply st l oid v (fun x t => { t with album := x })) := by
      simp [lineStep, h1, h2, h3, h4, h5, h6, hsome]
    rw [hs]
  · intro st l oid v h1 h2 h3 h4 h5 h6 h7 h8 hsome
    unfold parseLine
    have hs : lineStep st l =
        some (textApply st l oid v (fun x t => { t with genre := x })) := by
      simp [lineStep, h1, h2, h3, h4, h5, h6, h7, h8, hsome]
    rw [hs]
  · intro st l oid v h1 h2 h3 h4 h5 h6 h7 h8 h9 h10 hsome
    unfold parseLine
    have hs : lineStep st l =
        some (textApply st l oid v (fun x t => { t with label := x })) := by
      simp [lineStep, h1, h2, h3, h4, h5, h6, h7, h8, h9, h10, hsome]
    rw [hs]
  · intro st l oid v h1 h2 h3 h4 h5 h6 h7 h8 h9 h10 h11 hsome
    unfold parseLine
    have hs : lineStep st l =
        some (textApply st l oid v (fun x t => { t with comment := x })) := by
      simp [lineStep, h1, h2, h3, h4, h5, h6, h7, h8, h9, h10, h11, hsome]
    rw [hs]
  · intro st l oid v h1 h2 h3 h4 h5 h6 h7 h8 h9 h10 h11 h12 hsome
    refine ⟨?_, ?_⟩
    · unfold parseLine
      have hs : lineStep st l =
          some (applyField st oid (fun t => { t with cover := some v })) := by
        simp [lineStep, h1, h2, h3, h4, h5, h6, h7, h8, h9, h10, h11, h12, hsome]
      rw [hs]
    · rw [applyField_eta]

/-- C8 witness: the general TITLE clause at a concrete trimmed line. -/
theorem c8_witness :
    parseLine initPState ("TITLE= x ".toList) =
      .ok (textApply initPState ("TITLE= x ".toList) none (" x ".toList)
        (fun x t => { t with title := x })) :=
  c8_amended.2.2.1 initPState ("TITLE= x ".toList) none (" x ".toList)
    (by decide) (by decide)

theorem digitChar_ne_slash (r : Nat) (h : r < 10) : Char.ofNat (48 + r) ≠ '/' := by
  interval_cases r <;> decide

theorem replaceSlash_append (xs ys : List Char) :
    replaceSlash (xs ++ ys) = replaceSlash xs ++ replaceSlash ys := by
  simp [replaceSlash]

theorem replaceSlash_natDecimalAux :
    ∀ fuel n, replaceSlash (natDecimalAux fuel n) = natDecimalAux fuel n := by
  intro fuel
  induction fuel with
  | zero => intro n; rfl
  | succ fuel ih =>
    intro n
    unfold natDecimalAux
    split
    next h10 => simp [replaceSlash, digitChar_ne_slash _ h10]
    next h10 =>
      rw [replaceSlash_append, ih]
      simp [replaceSlash, digitChar_ne_slash _ (Nat.mod_lt _ (by omega))]

theorem replaceSlash_natDecimal (n : Nat) :
    replaceSlash (natDecimal n) = natDecimal n :=
  replaceSlash_natDecimalAux (n + 1) n

theorem replaceSlash_zeroPad (n w : Nat) :
    replaceSlash (zeroPad n w) = zeroPad n w := by
  unfold zeroPad
  rw [replaceSlash_append, replaceSlash_natDecimal]
  congr 1
  simp [replaceSlash]

theorem replaceSlash_dotspace : replaceSlash (". ".toList) = ". ".toList := by decide

theorem replaceSlash_dash : replaceSlash (" - ".toList) = " - ".toList := by decide

theorem replaceSlash_ext : replaceSlash (".flac".toList) = ".flac".toList := by decide

/-- The claimed output-path example tag. -/
def exTagFooBar : Tag :=
  { Tag.new with track := some 3, artist := some "Foo".toList, title := some "Bar".toList }

/-- A tag with neither artist nor title. -/
def exTagBare : Tag := { Tag.new with track := some 3 }

/-- C5 counterexample: with neither artist nor title the code omits the
dot-space separator, while the claim, read literally, keeps it. -/
theorem c5_counterexample :
    Tag.output_path exTagBare 3 = some [("003.flac".toList)] ∧
    specC5Literal exTagBare 3 = some [("003. .flac".toList)] ∧
    Tag.output_path exTagBare 3 ≠ specC5Literal exTagBare 3 := by decide

/-- C5 (amended): the planned path equals the claimed layout, with the
slash replacement confined to the artist and title portions and the
dot-space separator omitted when neither is present; and the concrete
example of the claim. -/
theorem c5_output_path :
    (∀ tag padding, Tag.output_path tag padding = specC5Amended tag padding)
  ∧ Tag.output_path exTagFooBar 3 = some [("003. Foo - Bar.flac".toList)] := by
  refine ⟨?_, by decide⟩
  intro tag padding
  unfold Tag.output_path specC5Amended
  cases tag.track with
  | none => rfl
  | some tr =>
    cases tag.artist with
    | some artist =>
      cases tag.title with
      | some title =>
        simp only [replaceSlash_append, replaceSlash_zeroPad, List.append_assoc]
        simp [replaceSlash, List.map_append]
      | none =>
        simp only [replaceSlash_append, replaceSlash_zeroPad, List.append_assoc]
        simp [replaceSlash, List.map_append]
    | none =>
      cases tag.title with
      | some title =>
        simp only [replaceSlash_append, replaceSlash_zeroPad, List.append_assoc]
        simp [replaceSlash, List.map_append]
      | none =>
        simp only [replaceSlash_append, replaceSlash_zeroPad, List.append_assoc]
        simp [replaceSlash, List.map_append]

theorem hasSub_flac_digit_head (d : Char) (hd : d.isDigit = true) (cs : List Char) :
    hasSub flacTail (d :: cs) = hasSub flacTail cs := by
  have hne : ¬ ('.' = d) := by
    intro h
    rw [← h] at hd
    exact absurd hd (by decide)
  simp [hasSub, flacTail, startsWithC, hne]

theorem trackfileCaps_none_of_hasSub_false :
    ∀ cs, hasSub flacTail cs = false → trackfileCaps cs = none := by
  intro cs
  induction cs with
  | nil => intro _; rfl
  | cons c cs ih =>
    intro h
    simp only [hasSub, Bool.or_eq_false_iff] at h
    unfold trackfileCaps
    rw [if_neg (by simp [h.2])]
    exact ih h.2

theorem hasSub_flac_dropWhile (cs : List Char) :
    hasSub flacTail (cs.dropWhile Char.isDigit) = hasSub flacTail cs := by
  induction cs with
  | nil => rfl
  | cons c cs ih =>
    by_cases hc : c.isDigit = true
    · simp [List.dropWhile_cons, hc, ih, hasSub_flac_digit_head c hc cs]
    · simp [List.dropWhile_cons, hc]

theorem trackfileCaps_cons (c : Char) (cs : List Char) :
    trackfileCaps (c :: cs) =
      if c.isDigit && hasSub flacTail cs then
        some (natOfDigits ((c :: cs).takeWhile Char.isDigit))
      else trackfileCaps cs := rfl

theorem trackfileCaps_eq_firstRunCand (name : List Char) :
    trackfileCaps name = firstRunCand name := by
  induction name with
  | nil => rfl
  | cons c cs ih =>
    rw [trackfileCaps_cons]
    by_cases hc : c.isDigit = true
    · have hdw : (c :: cs).dropWhile (fun x => !x.isDigit) = c :: cs := by
        simp [List.dropWhile_cons, hc]
      have htl : (c :: cs).dropWhile Char.isDigit = cs.dropWhile Char.isDigit := by
        simp [List.dropWhile_cons, hc]
      have hds : ((c :: cs).takeWhile Char.isDigit).isEmpty = false := by
        simp [List.takeWhile_cons, hc, List.isEmpty]
      have hrhs : firstRunCand (c :: cs) =
          (if hasSub flacTail cs = true then
            some (natOfDigits ((c :: cs).takeWhile Char.isDigit)) else none) := by
        simp only [firstRunCand]
        rw [hdw, htl, hasSub_flac_dropWhile, if_neg (by simp [hds])]
      rw [hrhs]
      cases hsub : hasSub flacTail cs with
      | true => rw [if_pos (by simp [hc]), if_pos rfl]
      | false =>
        rw [if_neg (by simp), if_neg (by simp)]
        exact trackfileCaps_none_of_hasSub_false cs hsub
    · have hdw : (c :: cs).dropWhile (fun x => !x.isDigit) =
          cs.dropWhile (fun x => !x.isDigit) := by
        simp [List.dropWhile_cons, hc]
      have hrhs : firstRunCand (c :: cs) = firstRunCand cs := by
        simp only [firstRunCand]
        rw [hdw]
      rw [hrhs, ← ih, if_neg (by simp [hc])]

theorem get_track_cons_some (t u : Nat) (a : List Char) (as : List (List Char))
    (hc : trackfileCaps a = some u) :
    get_track t (a :: as) = if u = t then .ok a else get_track t as := by
  show (match trackfileCaps a with
    | some u2 => if u2 = t then Except.ok a else get_track t as
    | none => get_track t as) = if u = t then Except.ok a else get_track t as
  rw [hc]

theorem get_track_cons_none (t : Nat) (a : List Char) (as : List (List Char))
    (hc : trackfileCaps a = none) :
    get_track t (a :: as) = get_track t as := by
  show (match trackfileCaps a with
    | some u2 => if u2 = t then Except.ok a else get_track t as
    | none => get_track t as) = get_track t as
  rw [hc]

theorem get_track_ok_first :
    ∀ (t : Nat) (es : List (List Char)) (e : List Char), get_track t es = .ok e →
      ∃ pre post, es = pre ++ e :: post ∧ trackfileCaps e = some t ∧
        ∀ x ∈ pre, trackfileCaps x ≠ some t := by
  intro t es
  induction es with
  | nil => intro e h; cases h
  | cons a as ih =>
    intro e h
    cases hc : trackfileCaps a with
    | some u =>
      rw [get_track_cons_some t u a as hc] at h
      by_cases hu : u = t
      · rw [if_pos hu] at h
        cases h
        refine ⟨[], as, rfl, ?_, by intro x hx; cases hx⟩
        rw [hc, hu]
      · rw [if_neg hu] at h
        obtain ⟨pre, post, hsplit, he, hpre⟩ := ih e h
        refine ⟨a :: pre, post, by rw [hsplit]; rfl, he, ?_⟩
        intro x hx
        rcases List.mem_cons.mp hx with rfl | hx
        · rw [hc]
          simp [hu]
        · exact hpre x hx
    | none =>
      rw [get_track_cons_none t a as hc] at h
      obtain ⟨pre, post, hsplit, he, hpre⟩ := ih e h
      refine ⟨a :: pre, post, by rw [hsplit]; rfl, he, ?_⟩
      intro x hx
      rcases List.mem_cons.mp hx with rfl | hx
      · simp [hc]
      · exact hpre x hx

theorem get_track_error_iff :
    ∀ (t : Nat) (es : List (List Char)),
      get_track t es = .error t ↔ ∀ x ∈ es, trackfileCaps x ≠ some t := by
  intro t es
  induction es with
  | nil => simp [get_track]
  | cons a as ih =>
    cases hc : trackfileCaps a with
    | some u =>
      rw [get_track_cons_some t u a as hc]
      by_cases hu : u = t
      · rw [if_pos hu]
        subst hu
        simp [hc]
      · rw [if_neg hu, ih]
        constructor
        · intro h x hx
          rcases List.mem_cons.mp hx with rfl | hx
          · rw [hc]
            simp [hu]
          · exact h x hx
        · intro h x hx
          exact h x (by simp [hx])
    | none =>
      rw [get_track_cons_none t a as hc, ih]
      constructor
      · intro h x hx
        rcases List.mem_cons.mp hx with rfl | hx
        · simp [hc]
        · exact h x hx
      · intro h x hx
        exact h x (by simp [hx])

/-- C6: track lookup scans the container entries in listing order and
returns the first entry whose captured digit run parses to the requested
track; the capture is the first digit run of the name provided the flac
extension occurs after it; with no matching entry it fails naming the
missing track; and the concrete spec example. -/
theorem c6_track_lookup :
    (∀ t es e, get_track t es = .ok e →
      ∃ pre post, es = pre ++ e :: post ∧ trackfileCaps e = some t ∧
        ∀ x ∈ pre, trackfileCaps x ≠ some t)
  ∧ (∀ t es, get_track t es = .error t ↔ ∀ x ∈ es, trackfileCaps x ≠ some t)
  ∧ (∀ name, trackfileCaps name = firstRunCand name)
  ∧ get_track 2 [("02 - Song.flac".toList), ("misc.flac".toList)] =
      .ok ("02 - Song.flac".toList)
  ∧ get_track 9 [("02 - Song.flac".toList), ("misc.flac".toList)] = .error 9 :=
  ⟨get_track_ok_first, get_track_error_iff, trackfileCaps_eq_firstRunCand,
   by decide, by decide⟩

/-- C6 witness: the first-match decomposition at the concrete container. -/
theorem c6_witness :
    ∃ pre post, [("02 - Song.flac".toList), ("misc.flac".toList)] =
      pre ++ ("02 - Song.flac".toList) :: post ∧
      trackfileCaps ("02 - Song.flac".toList) = some 2 ∧
      ∀ x ∈ pre, trackfileCaps x ≠ some 2 :=
  c6_track_lookup.1 2 [("02 - Song.flac".toList), ("misc.flac".toList)]
    ("02 - Song.flac".toList) (by decide)

theorem lookup_cons_self {κ β : Type} [BEq κ] [LawfulBEq κ] (k : κ) (v : β)
    (l : List (κ × β)) : ((k, v) :: l).lookup k = some v := by
  simp [List.lookup]

theorem lookup_cons_ne {κ β : Type} [BEq κ] [LawfulBEq κ] (a k : κ) (v : β)
    (l : List (κ × β)) (h : ¬ a = k) : ((k, v) :: l).lookup a = l.lookup a := by
  have hb : (a == k) = false := beq_eq_false_iff_ne.mpr h
  simp [List.lookup, hb]

/-- Cache coherence of the input-resolution state: every cached root comes
from a successful resolution whose container is cached alongside, and
every recorded resolution event has its reference cached. -/
def InInv {α ε : Type} (resolve : List Char → Except ε (α × α))
    (st : InState α) : Prop :=
  (∀ s r, st.inputs_root.lookup s = some r →
    ∃ f, resolve s = .ok (r, f) ∧ st.inputs_flac.lookup s = some f) ∧
  (∀ s, s ∈ st.events → (st.inputs_root.lookup s).isSome = true)

theorem nodup_append_singleton {γ : Type} (xs : List γ) (x : γ)
    (hn : xs.Nodup) (hx : x ∉ xs) : (xs ++ [x]).Nodup := by
  simp [List.nodup_append, hn, hx]

theorem keysOf_cons (tag : Tag) (rest : List Tag) :
    keysOf (tag :: rest) = tag.track :: keysOf rest := rfl

theorem resolveInputs_induct {α ε : Type} (resolve : List Char → Except ε (α × α)) :
    ∀ (tags : List Tag) (st st' : InState α),
      resolveInputs resolve tags st = .ok st' → InInv resolve st →
      InInv resolve st' ∧
      (st.events.Nodup → st'.events.Nodup) ∧
      (∀ n, (∀ t ∈ tags, t.track ≠ some n) →
        st'.input_map_roots.lookup n = st.input_map_roots.lookup n ∧
        st'.input_map_flacs.lookup n = st.input_map_flacs.lookup n) ∧
      ((keysOf tags).Nodup →
        ∀ tag ∈ tags, ∀ n s, tag.track = some n → tag.input = some s →
          ∃ r f, resolve s = .ok (r, f) ∧
            st'.input_map_roots.lookup n = some r ∧
            st'.input_map_flacs.lookup n = some f) := by
  intro tags
  induction tags with
  | nil =>
    intro st st' h hinv
    cases h
    exact ⟨hinv, fun hn => hn, fun n _ => ⟨rfl, rfl⟩,
      fun _ tag htag => absurd htag (by simp)⟩
  | cons tag rest ih =>
    intro st st' h hinv
    simp only [resolveInputs] at h
    cases htr : tag.track with
    | none =>
      simp only [htr] at h
      cases h
    | some track =>
      simp only [htr] at h
      cases hin : tag.input with
      | none =>
        simp only [hin] at h
        cases h
      | some input =>
        simp only [hin] at h
        cases hr : st.inputs_root.lookup input with
        | some r =>
          cases hf : st.inputs_flac.lookup input with
          | some f =>
            simp only [hr, hf] at h
            obtain ⟨ihinv, ihnodup, ihfresh, ihmaps⟩ :=
              ih { st with input_map_roots := (track, r) :: st.input_map_roots,
                           input_map_flacs := (track, f) :: st.input_map_flacs }
                st' h hinv
            refine ⟨ihinv, ihnodup, ?_, ?_⟩
            · intro n hn
              obtain ⟨h1, h2⟩ := ihfresh n (fun t ht => hn t (by simp [ht]))
              have htn : ¬ (n = track) := by
                intro he
                exact hn tag (by simp) (by rw [htr, he])
              rw [h1, h2, lookup_cons_ne n track r _ htn, lookup_cons_ne n track f _ htn]
              exact ⟨rfl, rfl⟩
            · intro hnodup tag' htag' n s htn hts
              rcases List.mem_cons.mp htag' with rfl | hmem
              · have hn2 : n = track := by
                  rw [htr] at htn
                  exact (Option.some.inj htn).symm
                subst hn2
                have hs2 : s = input := by
                  rw [hin] at hts
                  exact (Option.some.inj hts).symm
                subst hs2
                obtain ⟨f2, hres, hf2⟩ := hinv.1 s r hr
                have hf3 : f2 = f := by
                  rw [hf2] at hf
                  exact Option.some.inj hf
                subst hf3
                have hfr : ∀ t ∈ rest, t.track ≠ some n := by
                  intro t ht he
                  rw [keysOf_cons, htr] at hnodup
                  exact (List.nodup_cons.mp hnodup).1
                    (by
                      rw [← he]
                      exact List.mem_map.mpr ⟨t, ht, rfl⟩)
                obtain ⟨h1, h2⟩ := ihfresh n hfr
                refine ⟨r, f2, hres, ?_, ?_⟩
                · rw [h1, lookup_cons_self]
                · rw [h2, lookup_cons_self]
              · exact ihmaps (by rw [keysOf_cons] at hnodup; exact (List.nodup_cons.mp hnodup).2)
                  tag' hmem n s htn hts
          | none =>
            obtain ⟨f2, _, hf2⟩ := hinv.1 input r hr
            rw [hf2] at hf
            cases hf
        | none =>
          simp only [hr] at h
          cases hres : resolve input with
          | error e =>
            simp only [hres] at h
            cases h
          | ok p =>
            obtain ⟨r, f⟩ := p
            simp only [hres] at h
            have hnotin : input ∉ st.events := by
              intro hmem
              have := hinv.2 input hmem
              rw [hr] at this
              cases this
            have hinv2 : InInv resolve
                { st with inputs_root := (input, r) :: st.inputs_root,
                          inputs_flac := (input, f) :: st.inputs_flac,
                          input_map_roots := (track, r) :: st.input_map_roots,
                          input_map_flacs := (track, f) :: st.input_map_flacs,
                          events := st.events ++ [input] } := by
              constructor
              · intro s r2 hs
                by_cases hsi : s = input
                · subst hsi
                  rw [lookup_cons_self] at hs
                  cases hs
                  exact ⟨f, hres, lookup_cons_self s f _⟩
                · rw [lookup_cons_ne s input r _ hsi] at hs
                  obtain ⟨f2, hres2, hf2⟩ := hinv.1 s r2 hs
                  exact ⟨f2, hres2, by rw [lookup_cons_ne s input f _ hsi]; exact hf2⟩
              · intro s hs
                rcases List.mem_append.mp hs with hs | hs
                · by_cases hsi : s = input
                  · subst hsi
                    rw [lookup_cons_self]
                    rfl
                  · rw [lookup_cons_ne s input r _ hsi]
                    exact hinv.2 s hs
                · rcases List.mem_singleton.mp hs with rfl
                  rw [lookup_cons_self]
                  rfl
            obtain ⟨ihinv, ihnodup, ihfresh, ihmaps⟩ := ih _ st' h hinv2
            refine ⟨ihinv, ?_, ?_, ?_⟩
            · intro hn
              exact ihnodup (nodup_append_singleton st.events input hn hnotin)
            · intro n hn
              obtain ⟨h1, h2⟩ := ihfresh n (fun t ht => hn t (by simp [ht]))
              have htn : ¬ (n = track) := by
                intro he
                exact hn tag (by simp) (by rw [htr, he])
              rw [h1, h2, lookup_cons_ne n track r _ htn, lookup_cons_ne n track f _ htn]
              exact ⟨rfl, rfl⟩
            · intro hnodup tag' htag' n s htn hts
              rcases List.mem_cons.mp htag' with rfl | hmem
              · have hn2 : n = track := by
                  rw [htr] at htn
                  exact (Option.some.inj htn).symm
                subst hn2
                have hs2 : s = input := by
                  rw [hin] at hts
                  exact (Option.some.inj hts).symm
                subst hs2
                have hfr : ∀ t ∈ rest, t.track ≠ some n := by
                  intro t ht he
                  rw [keysOf_cons, htr] at hnodup
                  exact (List.nodup_cons.mp hnodup).1
                    (by
                      rw [← he]
                      exact List.mem_map.mpr ⟨t, ht, rfl⟩)
                obtain ⟨h1, h2⟩ := ihfresh n hfr
                refine ⟨r, f, hres, ?_, ?_⟩
                · rw [h1, lookup_cons_self]
                · rw [h2, lookup_cons_self]
              · exact ihmaps (by rw [keysOf_cons] at hnodup; exact (List.nodup_cons.mp hnodup).2)
                  tag' hmem n s htn hts

/-- Cache coherence of the cover-resolution state: every recorded
resolution event has its reference cached. -/
def CovInv {α : Type} (st : CovState α) : Prop :=
  ∀ s, s ∈ st.cevents → (st.covers.lookup s).isSome = true

theorem resolveCovers_induct {α ε : Type} (get_cover : α → List Char → Except ε α)
    (roots : List (Nat × α)) :
    ∀ (tags : List Tag) (st st' : CovState α),
      resolveCovers get_cover roots tags st = .ok st' → CovInv st →
      CovInv st' ∧ (st.cevents.Nodup → st'.cevents.Nodup) := by
  intro tags
  induction tags with
  | nil =>
    intro st st' h hinv
    cases h
    exact ⟨hinv, fun x => x⟩
  | cons tag rest ih =>
    intro st st' h hinv
    simp only [resolveCovers] at h
    cases htr : tag.track with
    | none =>
      simp only [htr] at h
      cases h
    | some track =>
      simp only [htr] at h
      cases hcv : tag.cover with
      | none =>
        simp only [hcv] at h
        exact ih st st' h hinv
      | some cover =>
        simp only [hcv] at h
        cases hl : st.covers.lookup cover with
        | some p =>
          simp only [hl] at h
          exact ih { st with cover_map := (track, p) :: st.cover_map } st' h hinv
        | none =>
          simp only [hl] at h
          cases hroot : roots.lookup track with
          | none =>
            simp only [hroot] at h
            cases h
          | some root =>
            simp only [hroot] at h
            cases hg : get_cover root cover with
            | error e =>
              simp only [hg] at h
              cases h
            | ok p =>
              simp only [hg] at h
              have hnotin : cover ∉ st.cevents := by
                intro hmem
                have hsome := hinv cover hmem
                rw [hl] at hsome
                cases hsome
              have hinv2 : CovInv
                  { st with covers := (cover, p) :: st.covers,
                            cover_map := (track, p) :: st.cover_map,
                            cevents := st.cevents ++ [cover] } := by
                intro s hs
                rcases List.mem_append.mp hs with hs | hs
                · by_cases hsc : s = cover
                  · subst hsc
                    rw [lookup_cons_self]
                    rfl
                  · rw [lookup_cons_ne s cover p _ hsc]
                    exact hinv s hs
                · rcases List.mem_singleton.mp hs with rfl
                  rw [lookup_cons_self]
                  rfl
              obtain ⟨ih1, ih2⟩ := ih _ st' h hinv2
              exact ⟨ih1, fun hn => ih2 (nodup_append_singleton st.cevents cover hn hnotin)⟩

theorem InInv_init {α ε : Type} (resolve : List Char → Except ε (α × α)) :
    InInv resolve (InState.init : InState α) := by
  constructor
  · intro s r hs
    cases hs
  · intro s hs
    cases hs

/-- C4: per distinct literal input reference, resolution happens at most
once per run; tags sharing a reference receive identical resolved root and
container paths; and per distinct literal cover reference, resolution
happens at most once. -/
theorem c4_memoized_resolution :
    (∀ (α ε : Type) (resolve : List Char → Except ε (α × α)) tags st',
      resolveInputs resolve tags InState.init = .ok st' → st'.events.Nodup)
  ∧ (∀ (α ε : Type) (resolve : List Char → Except ε (α × α)) tags st',
      (keysOf tags).Nodup →
      resolveInputs resolve tags InState.init = .ok st' →
      ∀ t1 t2, t1 ∈ tags → t2 ∈ tags → ∀ n1 n2 s,
        t1.track = some n1 → t2.track = some n2 →
        t1.input = some s → t2.input = some s →
        st'.input_map_roots.lookup n1 = st'.input_map_roots.lookup n2 ∧
        st'.input_map_flacs.lookup n1 = st'.input_map_flacs.lookup n2)
  ∧ (∀ (α ε : Type) (get_cover : α → List Char → Except ε α) roots tags st',
      resolveCovers get_cover roots tags CovState.init = .ok st' →
      st'.cevents.Nodup) := by
  refine ⟨?_, ?_, ?_⟩
  · intro α ε resolve tags st' h
    obtain ⟨_, hn, _, _⟩ :=
      resolveInputs_induct resolve tags InState.init st' h (InInv_init resolve)
    exact hn (by simp [InState.init])
  · intro α ε resolve tags st' hnd h t1 t2 h1 h2 n1 n2 s htn1 htn2 hts1 hts2
    obtain ⟨_, _, _, hmaps⟩ :=
      resolveInputs_induct resolve tags InState.init st' h (InInv_init resolve)
    obtain ⟨r1, f1, hres1, hr1, hf1⟩ := hmaps hnd t1 h1 n1 s htn1 hts1
    obtain ⟨r2, f2, hres2, hr2, hf2⟩ := hmaps hnd t2 h2 n2 s htn2 hts2
    rw [hres1] at hres2
    obtain ⟨hr, hf⟩ := Prod.mk.inj (Except.ok.inj hres2)
    subst hr
    subst hf
    rw [hr1, hr2, hf1, hf2]
    exact ⟨rfl, rfl⟩
  · intro α ε get_cover roots tags st' h
    have hinv : CovInv (CovState.init : CovState α) := by
      intro s hs
      cases hs
    obtain ⟨_, hn⟩ := resolveCovers_induct get_cover roots tags CovState.init st' h hinv
    exact hn (by simp [CovState.init])

/-- Two tags sharing the input reference a. -/
def exTagIn1 : Tag := { Tag.new with track := some 1, input := some "a".toList }

/-- Second tag with the same input reference. -/
def exTagIn2 : Tag := { Tag.new with track := some 2, input := some "a".toList }

/-- The resolution state after the two-tag run: one event only. -/
def exInRes : InState Unit :=
  ⟨[("a".toList, ())], [("a".toList, ())], [(2, ()), (1, ())], [(2, ()), (1, ())],
   ["a".toList]⟩

/-- C4 witness: two tags with the same reference produce one resolution
event. -/
theorem c4_witness : exInRes.events.Nodup :=
  c4_memoized_resolution.1 Unit Unit (fun _ => Except.ok ((), ()))
    [exTagIn1, exTagIn2] exInRes (by decide)

/-- The launched job indices recorded in an event list, in order. -/
def launchesOf (evs : List SEv) : List Nat := evs.filterMap launchIdx

theorem launchesOf_append (a b : List SEv) :
    launchesOf (a ++ b) = launchesOf a ++ launchesOf b := by
  simp [launchesOf]

theorem launchesOf_map_launch (xs : List Nat) :
    launchesOf (xs.map SEv.launch) = xs := by
  induction xs with
  | nil => rfl
  | cons x xs ih =>
    simp only [List.map_cons, launchesOf, List.filterMap_cons]
    simp only [launchIdx]
    simp only [launchesOf] at ih
    rw [ih]

theorem drainLoop_launches (enc : Nat → Bool) :
    ∀ ws evs, launchesOf (drainLoop enc ws evs) = launchesOf evs := by
  intro ws
  induction ws with
  | nil => intro evs; rfl
  | cons w ws ih =>
    intro evs
    by_cases hw : enc w = true
    · show launchesOf (if enc w = true then _ else _) = _
      rw [if_pos hw, ih, launchesOf_append]
      simp [launchesOf, launchIdx]
    · show launchesOf (if enc w = true then _ else _) = _
      rw [if_neg hw, launchesOf_append]
      simp [launchesOf, launchIdx]

theorem mainLoop_launches (enc : Nat → Bool) :
    ∀ pending working evs, ∃ k,
      launchesOf (mainLoop enc pending working evs) =
        launchesOf evs ++ pending.take k := by
  intro pending
  induction pending with
  | nil =>
    intro working evs
    refine ⟨0, ?_⟩
    show launchesOf (drainLoop enc working evs) = _
    rw [drainLoop_launches]
    simp
  | cons j pending ih =>
    intro working evs
    cases working with
    | nil =>
      by_cases hj : enc j = true
      · obtain ⟨k, hk⟩ := ih [] (evs ++ [SEv.launch j, SEv.waitOk j])
        refine ⟨k + 1, ?_⟩
        show launchesOf (if enc j = true then _ else _) = _
        rw [if_pos hj, hk, launchesOf_append, List.take_succ_cons]
        simp [launchesOf, launchIdx, List.append_assoc]
      · refine ⟨1, ?_⟩
        show launchesOf (if enc j = true then _ else _) = _
        rw [if_neg hj, launchesOf_append, List.take_succ_cons]
        simp [launchesOf, launchIdx]
    | cons w ws =>
      by_cases hw : enc w = true
      · obtain ⟨k, hk⟩ := ih (ws ++ [j]) (evs ++ [SEv.launch j, SEv.waitOk w])
        refine ⟨k + 1, ?_⟩
        show launchesOf (if enc w = true then _ else _) = _
        rw [if_pos hw, hk, launchesOf_append, List.take_succ_cons]
        simp [launchesOf, launchIdx, List.append_assoc]
      · refine ⟨1, ?_⟩
        show launchesOf (if enc w = true then _ else _) = _
        rw [if_neg hw, launchesOf_append, List.take_succ_cons]
        simp [launchesOf, launchIdx]

theorem drainLoop_dropLast_noFail (enc : Nat → Bool) :
    ∀ ws evs, (∀ e ∈ evs, isFail e = false) →
      ∀ e ∈ (drainLoop enc ws evs).dropLast, isFail e = false := by
  intro ws
  induction ws with
  | nil =>
    intro evs hnf e he
    exact hnf e ((List.dropLast_sublist evs).subset he)
  | cons w ws ih =>
    intro evs hnf e he
    by_cases hw : enc w = true
    · have heq : drainLoop enc (w :: ws) evs = drainLoop enc ws (evs ++ [SEv.waitOk w]) := by
        show (if enc w = true then _ else _) = _
        rw [if_pos hw]
      rw [heq] at he
      refine ih (evs ++ [SEv.waitOk w]) ?_ e he
      intro e2 he2
      rcases List.mem_append.mp he2 with h2 | h2
      · exact hnf e2 h2
      · rcases List.mem_singleton.mp h2 with rfl
        rfl
    · have heq : drainLoop enc (w :: ws) evs = evs ++ [SEv.waitFail w] := by
        show (if enc w = true then _ else _) = _
        rw [if_neg hw]
      rw [heq, List.dropLast_concat] at he
      exact hnf e he

theorem mainLoop_dropLast_noFail (enc : Nat → Bool) :
    ∀ pending working evs, (∀ e ∈ evs, isFail e = false) →
      ∀ e ∈ (mainLoop enc pending working evs).dropLast, isFail e = false := by
  intro pending
  induction pending with
  | nil =>
    intro working evs hnf e he
    exact drainLoop_dropLast_noFail enc working evs hnf e he
  | cons j pending ih =>
    intro working evs hnf
    have hgrow : ∀ x : SEv, isFail x = false →
        ∀ e2 ∈ evs ++ [SEv.launch j, x], isFail e2 = false := by
      intro x hx e2 he2
      rcases List.mem_append.mp he2 with h2 | h2
      · exact hnf e2 h2
      · rcases List.mem_cons.mp h2 with rfl | h2
        · rfl
        · rcases List.mem_singleton.mp h2 with rfl
          exact hx
    cases working with
    | nil =>
      intro e he
      by_cases hj : enc j = true
      · have heq : mainLoop enc (j :: pending) [] evs =
            mainLoop enc pending [] (evs ++ [SEv.launch j, SEv.waitOk j]) := by
          show (if enc j = true then _ else _) = _
          rw [if_pos hj]
        rw [heq] at he
        exact ih [] _ (hgrow (SEv.waitOk j) rfl) e he
      · have heq : mainLoop enc (j :: pending) [] evs =
            evs ++ [SEv.launch j, SEv.waitFail j] := by
          show (if enc j = true then _ else _) = _
          rw [if_neg hj]
        rw [heq] at he
        have hsplit : (evs ++ [SEv.launch j, SEv.waitFail j]).dropLast =
            evs ++ [SEv.launch j] := by
          rw [show evs ++ [SEv.launch j, SEv.waitFail j] =
            (evs ++ [SEv.launch j]) ++ [SEv.waitFail j] by simp]
          rw [List.dropLast_concat]
        rw [hsplit] at he
        rcases List.mem_append.mp he with h2 | h2
        · exact hnf e h2
        · rcases List.mem_singleton.mp h2 with rfl
          rfl
    | cons w ws =>
      intro e he
      by_cases hw : enc w = true
      · have heq : mainLoop enc (j :: pending) (w :: ws) evs =
            mainLoop enc pending (ws ++ [j]) (evs ++ [SEv.launch j, SEv.waitOk w]) := by
          show (if enc w = true then _ else _) = _
          rw [if_pos hw]
        rw [heq] at he
        exact ih (ws ++ [j]) _ (hgrow (SEv.waitOk w) rfl) e he
      · have heq : mainLoop enc (j :: pending) (w :: ws) evs =
            evs ++ [SEv.launch j, SEv.waitFail w] := by
          show (if enc w = true then _ else _) = _
          rw [if_neg hw]
        rw [heq] at he
        have hsplit : (evs ++ [SEv.launch j, SEv.waitFail w]).dropLast =
            evs ++ [SEv.launch j] := by
          rw [show evs ++ [SEv.launch j, SEv.waitFail w] =
            (evs ++ [SEv.launch j]) ++ [SEv.waitFail w] by simp]
          rw [List.dropLast_concat]
        rw [hsplit] at he
        rcases List.mem_append.mp he with h2 | h2
        · exact hnf e h2
        · rcases List.mem_singleton.mp h2 with rfl
          rfl

theorem drainLoop_noFail_enc (enc : Nat → Bool) :
    ∀ ws evs, (∀ e ∈ drainLoop enc ws evs, isFail e = false) →
      ∀ w ∈ ws, enc w = true := by
  intro ws
  induction ws with
  | nil =>
    intro evs _ w hw
    cases hw
  | cons a ws ih =>
    intro evs hnf
    by_cases ha : enc a = true
    · have heq : drainLoop enc (a :: ws) evs = drainLoop enc ws (evs ++ [SEv.waitOk a]) := by
        show (if enc a = true then _ else _) = _
        rw [if_pos ha]
      rw [heq] at hnf
      intro w hw
      rcases List.mem_cons.mp hw with rfl | hw
      · exact ha
      · exact ih _ hnf w hw
    · exfalso
      have heq : drainLoop enc (a :: ws) evs = evs ++ [SEv.waitFail a] := by
        show (if enc a = true then _ else _) = _
        rw [if_neg ha]
      have hbad := hnf (SEv.waitFail a) (by rw [heq]; simp)
      simp [isFail] at hbad

theorem mainLoop_noFail_enc (enc : Nat → Bool) :
    ∀ pending working evs,
      (∀ e ∈ mainLoop enc pending working evs, isFail e = false) →
      ∀ j2, (j2 ∈ pending ∨ j2 ∈ working) → enc j2 = true := by
  intro pending
  induction pending with
  | nil =>
    intro working evs hnf j2 hj2
    rcases hj2 with hj2 | hj2
    · cases hj2
    · exact drainLoop_noFail_enc enc working evs hnf j2 hj2
  | cons j pending ih =>
    intro working evs hnf j2 hj2
    cases working with
    | nil =>
      by_cases hj : enc j = true
      · have heq : mainLoop enc (j :: pending) [] evs =
            mainLoop enc pending [] (evs ++ [SEv.launch j, SEv.waitOk j]) := by
          show (if enc j = true then _ else _) = _
          rw [if_pos hj]
        rw [heq] at hnf
        rcases hj2 with hj2 | hj2
        · rcases List.mem_cons.mp hj2 with rfl | hj2
          · exact hj
          · exact ih [] _ hnf j2 (Or.inl hj2)
        · cases hj2
      · exfalso
        have heq : mainLoop enc (j :: pending) [] evs =
            evs ++ [SEv.launch j, SEv.waitFail j] := by
          show (if enc j = true then _ else _) = _
          rw [if_neg hj]
        have hbad := hnf (SEv.waitFail j) (by rw [heq]; simp)
        simp [isFail] at hbad
    | cons w ws =>
      by_cases hw : enc w = true
      · have heq : mainLoop enc (j :: pending) (w :: ws) evs =
            mainLoop enc pending (ws ++ [j]) (evs ++ [SEv.launch j, SEv.waitOk w]) := by
          show (if enc w = true then _ else _) = _
          rw [if_pos hw]
        rw [heq] at hnf
        rcases hj2 with hj2 | hj2
        · rcases List.mem_cons.mp hj2 with rfl | hj2
          · exact ih _ _ hnf j2 (Or.inr (by simp))
          · exact ih _ _ hnf j2 (Or.inl hj2)
        · rcases List.mem_cons.mp hj2 with rfl | hj2
          · exact hw
          · exact ih _ _ hnf j2 (Or.inr (by simp [hj2]))
      · exfalso
        have heq : mainLoop enc (j :: pending) (w :: ws) evs =
            evs ++ [SEv.launch j, SEv.waitFail w] := by
          show (if enc w = true then _ else _) = _
          rw [if_neg hw]
        have hbad := hnf (SEv.waitFail w) (by rw [heq]; simp)
        simp [isFail] at hbad

theorem encOf_map_snd (jobs : List (Bool × Bool)) :
    encOf (jobs.map fun b => (true, b.2)) = encOf jobs := by
  funext j
  unfold encOf
  rw [List.get?_map]
  cases jobs.get? j <;> rfl

/-- C9 (amended): the scheduler result is a function of the encode exit
statuses only, so a decode failure alone is never observed; after a failed
wait nothing further happens, in particular no further job is launched;
jobs are launched in order and at most once, so there is no retry; and
whenever some job has a failing encode status the run observes a failure.
The model contains no file-removal operation, mirroring the source. -/
theorem c9_failure_policy :
    (∀ jobs cnt, recompressRun jobs cnt =
      recompressRun (jobs.map fun b => (true, b.2)) cnt)
  ∧ (∀ jobs cnt evs, recompressRun jobs cnt = some evs →
      ∀ e ∈ evs.dropLast, isFail e = false)
  ∧ (∀ jobs cnt evs, recompressRun jobs cnt = some evs →
      (launchesOf evs).Nodup ∧
      ∃ k, launchesOf evs = (List.range jobs.length).take k)
  ∧ (∀ jobs cnt evs i b, recompressRun jobs cnt = some evs →
      jobs.get? i = some b → b.2 = false → evs.any isFail = true) := by
  refine ⟨?_, ?_, ?_, ?_⟩
  · intro jobs cnt
    unfold recompressRun
    rw [encOf_map_snd, List.length_map]
  · intro jobs cnt evs h e he
    unfold recompressRun at h
    cases hu : usizeSub (min jobs.length cnt) 1 with
    | none =>
      rw [hu] at h
      cases h
    | some p =>
      rw [hu] at h
      simp only [] at h
      cases h
      refine mainLoop_dropLast_noFail (encOf jobs) _ _ _ ?_ e he
      intro e2 he2
      obtain ⟨j2, _, rfl⟩ := List.mem_map.mp he2
      rfl
  · intro jobs cnt evs h
    unfold recompressRun at h
    cases hu : usizeSub (min jobs.length cnt) 1 with
    | none =>
      rw [hu] at h
      cases h
    | some p =>
      rw [hu] at h
      simp only [] at h
      cases h
      obtain ⟨k, hk⟩ := mainLoop_launches (encOf jobs)
        ((List.range jobs.length).drop p) ((List.range jobs.length).take p)
        (((List.range jobs.length).take p).map SEv.launch)
      rw [launchesOf_map_launch] at hk
      rw [hk, ← List.take_add]
      constructor
      · exact ((List.range jobs.length).take_sublist (p + k)).nodup (List.nodup_range jobs.length)
      · exact ⟨p + k, rfl⟩
  · intro jobs cnt evs i b h hget hb
    unfold recompressRun at h
    cases hu : usizeSub (min jobs.length cnt) 1 with
    | none =>
      rw [hu] at h
      cases h
    | some p =>
      rw [hu] at h
      simp only [] at h
      cases h
      by_contra hnofail
      have hnf : ∀ e ∈ mainLoop (encOf jobs) ((List.range jobs.length).drop p)
          ((List.range jobs.length).take p)
          (((List.range jobs.length).take p).map SEv.launch), isFail e = false := by
        intro e he
        cases hfe : isFail e with
        | false => rfl
        | true => exact absurd (List.any_eq_true.mpr ⟨e, he, hfe⟩) hnofail
      have hall := mainLoop_noFail_enc (encOf jobs) _ _ _ hnf
      have hilen : i < jobs.length := by
        by_contra hge
        rw [List.get?_eq_none.mpr (Nat.le_of_not_lt hge)] at hget
        cases hget
      have hi : i ∈ (List.range jobs.length).take p ++ (List.range jobs.length).drop p := by
        rw [List.take_append_drop]
        exact List.mem_range.mpr hilen
      have henc : encOf jobs i = true := by
        rcases List.mem_append.mp hi with hi2 | hi2
        · exact hall i (Or.inr hi2)
        · exact hall i (Or.inl hi2)
      unfold encOf at henc
      rw [hget] at henc
      simp at henc
      rw [hb] at henc
      cases henc

/-- C9 counterexample: a job whose decode status is failing but whose
encode status is successful runs to completion; the run does not abort. -/
theorem c9_counterexample :
    recompressRun [(false, true)] 4 = some [SEv.launch 0, SEv.waitOk 0] ∧
    ([SEv.launch 0, SEv.waitOk 0].any isFail) = false := by
  constructor
  · rfl
  · rfl

/-- C9 witness: the failure clause applied to a concrete failing encode. -/
theorem c9_witness :
    ∃ evs, recompressRun [(true, false)] 4 = some evs ∧ evs.any isFail = true := by
  refine ⟨[SEv.launch 0, SEv.waitFail 0], by rfl, ?_⟩
  exact c9_failure_policy.2.2.2 [(true, false)] 4 [SEv.launch 0, SEv.waitFail 0]
    0 (true, false) (by rfl) (by rfl) (by rfl)

/-- C10: a metadata file of empty lines parses to zero records with no
parse error; with zero records the resolution loops complete without
reporting through the error channel, the padding computation has no
maximum to unwrap, which is the first panic in pipeline order, and the
scheduler prefill bound min(0, C) - 1 underflows for every parallelism
count, so the scheduler model also panics on an empty job list. -/
theorem c10_empty_records_panic :
    parse_trackinfo [[], []] = .ok []
  ∧ paddingOf [] = none
  ∧ (∀ (α ε : Type) (resolve : List Char → Except ε (α × α)),
      resolveInputs resolve [] InState.init = .ok (InState.init : InState α))
  ∧ (∀ (α ε : Type) (g : α → List Char → Except ε α) (roots : List (Nat × α)),
      resolveCovers g roots [] CovState.init = .ok (CovState.init : CovState α))
  ∧ (∀ c : Nat, usizeSub (min 0 c) 1 = none)
  ∧ (∀ c : Nat, recompressRun [] c = none) := by
  refine ⟨by decide, rfl, fun α ε resolve => rfl, fun α ε g roots => rfl, ?_, ?_⟩
  · intro c
    simp [usizeSub]
  · intro c
    unfold recompressRun
    simp [usizeSub]
